import Mathlib

/-!
Shallow embedding of the white-paper summarization pipeline
(`document_processor.py` and `cohere_compass.py`).

Python strings are modelled as `List Char`; each Python string operation
used by the code (`strip`, `split`, `join`, slicing, `re.sub` for the two
fixed patterns) is given an executable Lean counterpart, and each function
of the pipeline is translated directly from the source.
-/

namespace RAGSummary

/-- Python strings are modelled as lists of characters. -/
abbrev Str := List Char

/-- The characters treated as whitespace by Python `str.strip()` and by the
regex class `\s` (ASCII range). -/
def pyIsSpace (c : Char) : Bool :=
  c = ' ' || c = '\t' || c = '\n' || c = '\r' || c = '\x0b' || c = '\x0c'

/-- Python `str.lstrip()` (no arguments): drop leading whitespace. -/
def lstrip (s : Str) : Str := s.dropWhile pyIsSpace

/-- Python `str.rstrip()` (no arguments): drop trailing whitespace. -/
def rstrip (s : Str) : Str := (s.reverse.dropWhile pyIsSpace).reverse

/-- Python `str.strip()` (no arguments): drop leading and trailing whitespace. -/
def pyStrip (s : Str) : Str := lstrip (rstrip s)

/-- Python `content.split('\n\n')`: split on non-overlapping occurrences of
the two-character separator, scanning left to right. -/
def splitNN : Str → List Str
  | [] => [[]]
  | '\n' :: '\n' :: rest => [] :: splitNN rest
  | c :: rest =>
    match splitNN rest with
    | [] => [[c]]
    | p :: ps => (c :: p) :: ps

/-- Python `s.split(sep)` for a single-character separator. -/
def splitChar (sep : Char) : Str → List Str
  | [] => [[]]
  | c :: rest =>
    if c = sep then [] :: splitChar sep rest
    else
      match splitChar sep rest with
      | [] => [[c]]
      | p :: ps => (c :: p) :: ps

/-- Python `re.sub(r'\s+', ' ', s)`, as a one-pass state machine: every
maximal run of whitespace becomes a single space, emitted at the first
character of the run (`inRun` records whether the previous character was
part of a whitespace run). -/
def collapseWSAux : Bool → Str → Str
  | _, [] => []
  | inRun, c :: rest =>
    if pyIsSpace c then
      if inRun then collapseWSAux true rest
      else ' ' :: collapseWSAux true rest
    else c :: collapseWSAux false rest

/-- Python `re.sub(r'\s+', ' ', s)`. -/
def collapseWS (s : Str) : Str := collapseWSAux false s

/-- The regex class `\w` (ASCII range): letters, digits, underscore. -/
def isWordChar (c : Char) : Bool := c.isAlphanum || c = '_'

/-- The characters kept by
`re.sub(r'[^\w\s\.\,\;\:\!\?\-\(\)\[\]]', '', content)` in
`DocumentProcessor._clean_content`. -/
def isAllowed (c : Char) : Bool :=
  isWordChar c || pyIsSpace c || c = '.' || c = ',' || c = ';' || c = ':' ||
    c = '!' || c = '?' || c = '-' || c = '(' || c = ')' || c = '[' || c = ']'

/-- The string the normalizer appends when it truncates
(`"... [Content truncated]"` in `_clean_content`). -/
def truncationMarker : Str := "... [Content truncated]".data

/-- `DocumentProcessor._clean_content`, parameterized by
`self.max_content_length` (500000 in `__init__`): collapse whitespace,
strip disallowed characters, cap the length appending the truncation
marker, and strip the result. -/
def clean_content (maxContentLength : Nat) (content : Str) : Str :=
  if content = [] then []
  else
    let c1 := collapseWS content
    let c2 := c1.filter isAllowed
    let c3 := if c2.length > maxContentLength
      then c2.take maxContentLength ++ truncationMarker
      else c2
    pyStrip c3

/-- The configured maximum content length
(`self.max_content_length = 500000`). -/
def max_content_length : Nat := 500000

/-- Whether a string starts with a whitespace character. -/
def headIsSpace : Str → Bool
  | [] => false
  | c :: _ => pyIsSpace c

/-- Whether a string contains a run of two or more consecutive whitespace
characters. -/
def hasWSRun : Str → Bool
  | c1 :: c2 :: rest => (pyIsSpace c1 && pyIsSpace c2) || hasWSRun (c2 :: rest)
  | _ => false

/-! ## Chunker (`CohereCompassRAG._chunk_document`) -/

/-- The paragraph separator `"\n\n"`. -/
def paraSep : Str := ['\n', '\n']

/-- The loop of `_chunk_document`: fold over the paragraph list, carrying
`current_chunk` and the accumulated `chunks`. -/
def chunkLoop (chunkSize : Nat) : List Str → Str → List Str → List Str
  | [], current, chunks =>
    if current ≠ [] then chunks ++ [pyStrip current] else chunks
  | para :: paras, current, chunks =>
    if current.length + para.length < chunkSize then
      chunkLoop chunkSize paras (current ++ para ++ paraSep) chunks
    else
      chunkLoop chunkSize paras (para ++ paraSep)
        (if current ≠ [] then chunks ++ [pyStrip current] else chunks)

/-- `CohereCompassRAG._chunk_document`: split on `"\n\n"`, then greedily
accumulate paragraphs (each re-suffixed with the separator) while
`len(current_chunk) + len(para) < chunk_size`, emitting stripped chunks. -/
def chunk_document (chunkSize : Nat) (content : Str) : List Str :=
  chunkLoop chunkSize (splitNN content) [] []

/-- The default chunk size (`self.max_chunk_size = 10000`). -/
def max_chunk_size : Nat := 10000

/-- The raw text `current_chunk` holds after the paragraphs of `g` have
been accumulated: each paragraph followed by the separator. -/
def joinPS (g : List Str) : Str := (g.map (fun p => p ++ paraSep)).flatten

/-! ## Outline extraction (`CohereCompassRAG._extract_key_sections`) -/

/-- One entry of the `sections` list: the dict
`{"title": ..., "content": ...}`. -/
structure KeySection where
  title : Str
  content : Str
deriving DecidableEq, Repr

/-- Python `line.startswith('#')`. -/
def startsWithHash : Str → Bool
  | '#' :: _ => true
  | _ => false

/-- Python `line.lstrip('#')`: drop leading `#` characters. -/
def lstripHash (l : Str) : Str := l.dropWhile (fun c => c = '#')

/-- Python truthiness of `line.strip()`: the line has a non-whitespace
character. -/
def nonBlank (l : Str) : Bool := !(pyStrip l).isEmpty

/-- Python `'\n'.join(lines)`. -/
def joinNL (lines : List Str) : Str := List.intercalate ['\n'] lines

/-- Python truthiness of the `current_section` variable (`None` and the
empty string are falsy). -/
def sectionTruthy : Option Str → Bool
  | none => false
  | some t => !t.isEmpty

/-- Close the current section as `_extract_key_sections` does at a new
heading and at end of text: append `{"title": current_section,
"content": '\n'.join(current_content).strip()}` only when
`current_section` is truthy. -/
def closeSection (cs : Option Str) (cc : List Str) (acc : List KeySection) :
    List KeySection :=
  if sectionTruthy cs then acc ++ [⟨cs.getD [], pyStrip (joinNL cc)⟩] else acc

/-- The sections `closeSection` adds, as a stand-alone list (empty or a
single section). -/
def emitSec (cs : Option Str) (cc : List Str) : List KeySection :=
  if sectionTruthy cs then [⟨cs.getD [], pyStrip (joinNL cc)⟩] else []

/-- The line loop of `_extract_key_sections`, carrying `current_section`,
`current_content` and the accumulated `sections`. -/
def sectionsLoop : List Str → Option Str → List Str → List KeySection →
    List KeySection
  | [], cs, cc, acc => closeSection cs cc acc
  | line :: rest, cs, cc, acc =>
    if startsWithHash line then
      sectionsLoop rest (some (pyStrip (lstripHash line))) []
        (closeSection cs cc acc)
    else if nonBlank line then sectionsLoop rest cs (cc ++ [line]) acc
    else sectionsLoop rest cs cc acc

/-- `CohereCompassRAG._extract_key_sections`: split the summary text into
lines and run the scanning loop. -/
def extract_key_sections (summaryText : Str) : List KeySection :=
  sectionsLoop (splitChar '\n' summaryText) none [] []

/-- Spec-side restatement of outline extraction as a direct recursion over
the line list: each heading line with a non-empty marker-stripped title
yields one section whose content is the stripped newline-join of the
non-blank lines up to the next heading. Used to settle the outline claim
against the accumulator-style source loop. -/
def sectionsOfLines : List Str → List KeySection
  | [] => []
  | line :: rest =>
    if startsWithHash line then
      let t := pyStrip (lstripHash line)
      let body := (rest.takeWhile (fun l => !startsWithHash l)).filter nonBlank
      let rest1 := rest.dropWhile (fun l => !startsWithHash l)
      if t.isEmpty then sectionsOfLines rest1
      else ⟨t, pyStrip (joinNL body)⟩ :: sectionsOfLines rest1
    else sectionsOfLines rest
termination_by lines => lines.length
decreasing_by
  all_goals simp only [List.length_cons]
  all_goals first
    | exact Nat.lt_succ_of_le (List.dropWhile_suffix _).length_le
    | exact Nat.lt_succ_self _

/-! ## Prompt builders -/

/-- The fixed head of the summary prompt (`base_prompt` in
`_create_summary_prompt`). -/
def summaryBasePrompt : Str :=
  ("You are an expert AI assistant specialized in analyzing and summarizing complex technical documents, particularly model white papers for financial and risk management systems.\n\nTASK: Generate a comprehensive, human-like summary of the following model white paper. The summary should be thorough, well-structured, and capture ALL important details without missing any critical information.\n\nDOCUMENT CONTENT:\n").data

/-- The detailed-instruction block appended when `include_details` is
true. -/
def summaryDetailedInstructions : Str :=
  ("\nINSTRUCTIONS FOR SUMMARY:\n1. **Executive Overview** (2-3 paragraphs): Provide a high-level overview of the model, its purpose, and key objectives\n2. **Model Methodology** (detailed section): Explain the technical approach, algorithms, methodologies, and underlying assumptions\n3. **Data Requirements** (detailed section): Describe all data sources, data quality requirements, preprocessing steps, and data lineage\n4. **Key Features and Components** (detailed section): List and explain all important features, components, and modules of the model\n5. **Performance Metrics** (detailed section): Document all performance measures, benchmarks, and evaluation criteria\n6. **Risk Considerations** (detailed section): Identify and analyze all risk factors, limitations, and mitigation strategies\n7. **Regulatory Compliance** (detailed section): Note any regulatory requirements, compliance aspects, and governance considerations\n8. **Implementation Details** (detailed section): Cover deployment architecture, integration points, and operational considerations\n9. **Conclusions and Recommendations** (1-2 paragraphs): Summarize key takeaways and any recommendations or next steps\n10. **Technical Specifications** (detailed section): Include any technical parameters, configurations, or specifications mentioned\n\nWRITING STYLE:\n- Write in a professional, clear, and comprehensive manner\n- Use appropriate technical terminology while remaining accessible\n- Ensure the summary is self-contained and can be understood without reading the original\n- Include specific numbers, metrics, and details where mentioned in the document\n- Organize information logically and hierarchically\n- Do NOT omit any important details - completeness is critical\n\nFORMAT: Provide the summary in well-structured sections with clear headings and subheadings using markdown formatting.\n").data

/-- The concise-instruction block appended when `include_details` is
false. -/
def summaryConciseInstructions : Str :=
  ("\nINSTRUCTIONS: Provide a concise but comprehensive summary covering the main points of the document.\n").data

/-- `CohereCompassRAG._create_summary_prompt`: embed the (truncated)
content between the fixed head and the chosen instruction block. -/
def create_summary_prompt (content : Str) (includeDetails : Bool) : Str :=
  let truncatedContent :=
    if content.length > 50000 then content.take 50000 else content
  summaryBasePrompt ++ ("\n").data ++ truncatedContent ++ ("\n\n").data ++
    (if includeDetails then summaryDetailedInstructions
     else summaryConciseInstructions)

/-- The fixed head of the extraction prompt in `extract_key_information`
(the braces of the JSON schema example are written `\x7b`/`\x7d`). -/
def extractionPromptHead : Str :=
  ("Based on the document content provided, extract the following key information in a structured JSON format:\n\n\x7b\n    \"model_name\": \"Name of the model\",\n    \"model_type\": \"Type/category of the model\",\n    \"primary_objective\": \"Main objective or purpose\",\n    \"methodology\": \"Brief description of methodology\",\n    \"key_assumptions\": [\"List of key assumptions\"],\n    \"data_sources\": [\"List of data sources\"],\n    \"performance_metrics\": [\"List of performance metrics\"],\n    \"key_limitations\": [\"List of limitations\"],\n    \"risk_factors\": [\"List of risk factors\"],\n    \"regulatory_considerations\": [\"List of regulatory aspects\"],\n    \"implementation_requirements\": [\"List of implementation requirements\"]\n\x7d\n\nDOCUMENT CONTENT:\n").data

/-- The fixed tail of the extraction prompt. -/
def extractionPromptTail : Str :=
  ("\n\nProvide the information in valid JSON format.").data

/-- The extraction prompt built by `extract_key_information`. -/
def create_extraction_prompt (documentContent : Str) : Str :=
  extractionPromptHead ++ documentContent.take 30000 ++ extractionPromptTail

/-- The fixed head of the per-question prompt in `answer_questions`. -/
def qaPromptHead : Str :=
  ("Based on the following document content, please answer the question comprehensively and accurately.\n\nDOCUMENT CONTENT:\n").data

/-- The fixed middle piece of the per-question prompt. -/
def qaPromptMid : Str := ("\n\nQUESTION: ").data

/-- The fixed tail of the per-question prompt. -/
def qaPromptTail : Str :=
  ("\n\nProvide a detailed, accurate answer based on the document. If the information is not available in the document, state that clearly.\n").data

/-- The per-question prompt built inside the loop of `answer_questions`. -/
def create_qa_prompt (documentContent question : Str) : Str :=
  qaPromptHead ++ documentContent.take 30000 ++ qaPromptMid ++ question ++
    qaPromptTail

/-! ## Structured extraction (`CohereCompassRAG.extract_key_information`) -/

/-- Model of the values `json.loads` can produce. -/
inductive JsonVal where
  | null : JsonVal
  | bool (b : Bool) : JsonVal
  | num (n : Int) : JsonVal
  | str (s : Str) : JsonVal
  | arr (elems : List JsonVal) : JsonVal
  | obj (fields : List (Str × JsonVal)) : JsonVal

/-- `CohereCompassRAG.extract_key_information`, with the model call and
`json.loads` as explicit functional parameters: build the extraction
prompt, call the model, try to parse the response, and fall back to
`{"raw_response": response.text}` when parsing fails. -/
def extract_key_information (chat : Str → Str)
    (jsonLoads : Str → Option JsonVal) (documentContent : Str) : JsonVal :=
  let responseText := chat (create_extraction_prompt documentContent)
  match jsonLoads responseText with
  | some v => v
  | none => JsonVal.obj [(("raw_response").data, JsonVal.str responseText)]

/-! ## Question answering (`CohereCompassRAG.answer_questions`) -/

/-- Python dict assignment `answers[question] = response`: update in place
when the key is present, append otherwise. -/
def dictInsert (k v : Str) : List (Str × Str) → List (Str × Str)
  | [] => [(k, v)]
  | (k0, v0) :: rest =>
    if k0 = k then (k0, v) :: rest else (k0, v0) :: dictInsert k v rest

/-- Python dict lookup on the association-list model. -/
def dictGet (k : Str) : List (Str × Str) → Option Str
  | [] => none
  | (k0, v0) :: rest => if k0 = k then some v0 else dictGet k rest

/-- The question loop of `answer_questions`, also logging every prompt
sent to the model (one `client.chat` call per loop iteration). -/
def answersLoop (chat : Str → Str) (documentContent : Str) :
    List Str → List (Str × Str) → List Str → List (Str × Str) × List Str
  | [], answers, promptLog => (answers, promptLog)
  | q :: qs, answers, promptLog =>
    let prompt := create_qa_prompt documentContent q
    answersLoop chat documentContent qs (dictInsert q (chat prompt) answers)
      (promptLog ++ [prompt])

/-- `CohereCompassRAG.answer_questions`, with the model call as an explicit
functional parameter; returns the answers dict together with the list of
prompts sent to the model, in the order they were sent. -/
def answer_questions (chat : Str → Str) (documentContent : Str)
    (questions : List Str) : List (Str × Str) × List Str :=
  answersLoop chat documentContent questions [] []

/-! ## Orchestrator pieces (`process_white_paper`, `generate_summary`) -/

/-- `CohereCompassRAG.process_white_paper`: the document processor's result
is passed in as `extractedContent` (its file reads are outside this model);
empty content raises `ValueError(f"Could not extract content from
{file_path}")`, anything else is returned unchanged. -/
def process_white_paper (filePath extractedContent : Str) :
    Except Str Str :=
  if extractedContent = [] then
    Except.error (("Could not extract content from ").data ++ filePath)
  else Except.ok extractedContent

/-- The record built by `generate_summary` (`summary_data`). -/
structure SummaryData where
  summary : Str
  document_length : Nat
  chunks_processed : Nat
  model_used : Str
  key_sections : List KeySection

/-- `CohereCompassRAG.generate_summary`, with the model call as an explicit
functional parameter: chunk the document (for the `chunks_processed`
count), build the summary prompt, call the model once, and assemble the
summary record. -/
def generate_summary (chat : Str → Str) (model : Str)
    (documentContent : Str) (includeDetails : Bool) : SummaryData :=
  let chunks := chunk_document max_chunk_size documentContent
  let summaryText := chat (create_summary_prompt documentContent includeDetails)
  { summary := summaryText
    document_length := documentContent.length
    chunks_processed := chunks.length
    model_used := model
    key_sections := extract_key_sections summaryText }

/-! ## Helper lemmas about the string primitives -/

theorem hasWSRun_cons (c : Char) (t : Str) :
    hasWSRun (c :: t) = ((pyIsSpace c && headIsSpace t) || hasWSRun t) := by
  cases t <;> simp [hasWSRun, headIsSpace]

theorem headIsSpace_append (x y : Str) :
    headIsSpace (x ++ y) = (if x = [] then headIsSpace y else headIsSpace x) := by
  cases x <;> simp [headIsSpace]

theorem hasWSRun_append {x y : Str} (h1 : hasWSRun x = false)
    (h2 : hasWSRun y = false) (h3 : headIsSpace y = false) :
    hasWSRun (x ++ y) = false := by
  induction x with
  | nil => simpa using h2
  | cons c x ih =>
    rw [hasWSRun_cons] at h1
    rw [List.cons_append, hasWSRun_cons]
    rcases Bool.or_eq_false_iff.mp h1 with ⟨hl, hr⟩
    rw [ih hr, headIsSpace_append]
    rcases Bool.and_eq_false_iff.mp hl with hc | hx
    · simp [hc]
    · by_cases hxe : x = []
      · simp [hxe, h3]
      · simp [hxe, hx]

theorem hasWSRun_append_left {x y : Str} (h : hasWSRun (x ++ y) = false) :
    hasWSRun x = false := by
  induction x with
  | nil => simp [hasWSRun]
  | cons c x ih =>
    rw [List.cons_append, hasWSRun_cons] at h
    rcases Bool.or_eq_false_iff.mp h with ⟨hl, hr⟩
    rw [hasWSRun_cons, ih hr, Bool.or_false]
    rcases Bool.and_eq_false_iff.mp hl with hc | hx
    · simp [hc]
    · by_cases hxe : x = []
      · simp [hxe, headIsSpace]
      · rw [headIsSpace_append, if_neg hxe] at hx
        simp [hx]

theorem hasWSRun_append_right {x y : Str} (h : hasWSRun (x ++ y) = false) :
    hasWSRun y = false := by
  induction x with
  | nil => simpa using h
  | cons c x ih =>
    rw [List.cons_append, hasWSRun_cons] at h
    exact ih (Bool.or_eq_false_iff.mp h).2

theorem hasWSRun_prefix_closed {x y : Str} (hp : x <+: y)
    (h : hasWSRun y = false) : hasWSRun x = false := by
  obtain ⟨t, ht⟩ := hp
  exact hasWSRun_append_left (ht ▸ h)

theorem hasWSRun_of_suffix {x y : Str} (hs : x <:+ y)
    (h : hasWSRun y = false) : hasWSRun x = false := by
  obtain ⟨t, ht⟩ := hs
  exact hasWSRun_append_right (ht ▸ h)

theorem rstrip_prefix_self (s : Str) : rstrip s <+: s := by
  have h := List.dropWhile_suffix (l := s.reverse) pyIsSpace
  have h2 := List.reverse_prefix.mpr h
  rwa [List.reverse_reverse] at h2

theorem lstrip_suffix (s : Str) : lstrip s <:+ s := List.dropWhile_suffix _

theorem hasWSRun_pyStrip {s : Str} (h : hasWSRun s = false) :
    hasWSRun (pyStrip s) = false :=
  hasWSRun_of_suffix (lstrip_suffix _) (hasWSRun_prefix_closed (rstrip_prefix_self _) h)

theorem length_lstrip_le (s : Str) : (lstrip s).length ≤ s.length :=
  (lstrip_suffix s).length_le

theorem length_rstrip_le (s : Str) : (rstrip s).length ≤ s.length :=
  (rstrip_prefix_self s).length_le

theorem length_pyStrip_le (s : Str) : (pyStrip s).length ≤ s.length :=
  le_trans (length_lstrip_le _) (length_rstrip_le _)

/-! ## Lemmas about the whitespace-collapsing pass -/

theorem mem_collapseWSAux {c : Char} :
    ∀ {b : Bool} {l : Str}, c ∈ collapseWSAux b l → c = ' ' ∨ c ∈ l := by
  intro b l
  induction l generalizing b with
  | nil => intro h; simp [collapseWSAux] at h
  | cons d l ih =>
    intro h
    by_cases hd : pyIsSpace d
    · cases b with
      | true =>
        simp only [collapseWSAux, hd, if_true] at h
        rcases ih h with h1 | h2
        · exact Or.inl h1
        · exact Or.inr (List.mem_cons_of_mem _ h2)
      | false =>
        simp only [collapseWSAux, hd, if_true] at h
        rcases List.mem_cons.mp h with h1 | h1
        · exact Or.inl h1
        · rcases ih h1 with h2 | h2
          · exact Or.inl h2
          · exact Or.inr (List.mem_cons_of_mem _ h2)
    · simp only [collapseWSAux, hd, if_false, Bool.false_eq_true] at h
      rcases List.mem_cons.mp h with h1 | h1
      · exact Or.inr (h1 ▸ List.mem_cons_self _ _)
      · rcases ih h1 with h2 | h2
        · exact Or.inl h2
        · exact Or.inr (List.mem_cons_of_mem _ h2)

theorem collapseWSAux_good (l : Str) :
    ∀ b : Bool, hasWSRun (collapseWSAux b l) = false ∧
      (b = true → headIsSpace (collapseWSAux b l) = false) := by
  induction l with
  | nil => intro b; simp [collapseWSAux, hasWSRun, headIsSpace]
  | cons c l ih =>
    intro b
    by_cases hc : pyIsSpace c
    · cases b with
      | true =>
        simp only [collapseWSAux, hc, if_true]
        exact ⟨(ih true).1, fun _ => (ih true).2 rfl⟩
      | false =>
        simp only [collapseWSAux, hc, if_true, Bool.false_eq_true, if_false]
        constructor
        · rw [hasWSRun_cons, (ih true).1, (ih true).2 rfl]
          simp
        · intro h; cases h
    · simp only [collapseWSAux, hc, if_false, Bool.false_eq_true]
      constructor
      · rw [hasWSRun_cons, (ih false).1]
        simp [hc]
      · intro _
        simp [headIsSpace, hc]

theorem hasWSRun_collapseWS (s : Str) : hasWSRun (collapseWS s) = false :=
  (collapseWSAux_good s false).1

theorem collapseWSAux_of_no_space {l : Str}
    (h : ∀ c ∈ l, pyIsSpace c = false) : ∀ b : Bool, collapseWSAux b l = l := by
  induction l with
  | nil => intro b; rfl
  | cons c l ih =>
    intro b
    have hc := h c (List.mem_cons_self _ _)
    simp only [collapseWSAux, hc, if_false, Bool.false_eq_true]
    rw [ih (fun d hd => h d (List.mem_cons_of_mem _ hd))]

theorem collapseWS_of_no_space {l : Str}
    (h : ∀ c ∈ l, pyIsSpace c = false) : collapseWS l = l :=
  collapseWSAux_of_no_space h false

/-! ## The normalizer (`_clean_content`): claims C7 and C1 -/

theorem headIsSpace_take {n : Nat} {l : Str}
    (h : headIsSpace (l.take n) = true) : headIsSpace l = true := by
  cases n with
  | zero => simp [headIsSpace] at h
  | succ m =>
    cases l with
    | nil => simp [headIsSpace] at h
    | cons c l => simpa [headIsSpace] using h

theorem hasWSRun_take {l : Str} (n : Nat) (h : hasWSRun l = false) :
    hasWSRun (l.take n) = false :=
  hasWSRun_prefix_closed ( List.take_prefix n l) h

/-- The core of the normalizer equation: distributing the final `strip`
over the truncated content and the appended marker. -/
theorem lstrip_append_keep (x : Str) {y : Str} (hy : lstrip y = y) :
    lstrip (x ++ y) = lstrip x ++ y := by
  induction x with
  | nil => simpa using hy
  | cons c x ih =>
    by_cases hc : pyIsSpace c
    · rw [List.cons_append]
      simp only [lstrip, List.dropWhile_cons, hc, if_true]
      exact ih
    · rw [List.cons_append]
      simp only [lstrip, List.dropWhile_cons, hc, if_false, Bool.false_eq_true]
      rw [List.cons_append]

theorem rstrip_append_keep (x : Str) {y : Str} {d : Char} {t : Str}
    (hy : y.reverse = d :: t) (hd : pyIsSpace d = false) :
    rstrip (x ++ y) = x ++ y := by
  unfold rstrip
  rw [List.reverse_append, hy, List.cons_append, List.dropWhile_cons, hd]
  simp only [Bool.false_eq_true, if_false]
  rw [← List.cons_append, ← hy, ← List.reverse_append, List.reverse_reverse]

theorem rstrip_append_nn (y : Str) : rstrip (y ++ paraSep) = rstrip y := by
  unfold rstrip paraSep
  rw [List.reverse_append]
  simp [List.dropWhile_cons, pyIsSpace]

theorem pyStrip_append_nn (y : Str) : pyStrip (y ++ paraSep) = pyStrip y := by
  unfold pyStrip
  rw [rstrip_append_nn]

/-- Unconditional description of `_clean_content`: the cleaned text is the
whitespace-collapsed, character-filtered input; over the cap, the output is
its first `maxLen` characters with their leading whitespace dropped and
the marker `"... [Content truncated]"` appended; at or under the cap the
output is the cleaned text stripped on both sides. -/
theorem clean_content_spec (maxLen : Nat) (content : Str) :
    clean_content maxLen content =
      (if ((collapseWS content).filter isAllowed).length > maxLen
       then lstrip (((collapseWS content).filter isAllowed).take maxLen) ++
         truncationMarker
       else pyStrip ((collapseWS content).filter isAllowed)) := by
  by_cases hc : content = []
  · subst hc
    simp [clean_content, collapseWS, collapseWSAux, pyStrip, lstrip, rstrip]
  · unfold clean_content
    rw [if_neg hc]
    show pyStrip (if ((collapseWS content).filter isAllowed).length > maxLen
        then ((collapseWS content).filter isAllowed).take maxLen ++ truncationMarker
        else (collapseWS content).filter isAllowed) = _
    by_cases hl : ((collapseWS content).filter isAllowed).length > maxLen
    · simp only [if_pos hl]
      have hrev : truncationMarker.reverse = ']' :: truncationMarker.reverse.tail := by decide
      have hstep := rstrip_append_keep
        (((collapseWS content).filter isAllowed).take maxLen) hrev (by decide)
      unfold pyStrip
      rw [hstep]
      exact lstrip_append_keep _ (by decide)
    · simp only [if_neg hl]

theorem dropWhile_replicate_of_not {p : Char → Bool} {a : Char}
    (h : p a = false) (n : Nat) :
    (List.replicate n a).dropWhile p = List.replicate n a := by
  induction n with
  | zero => rfl
  | succ m ih =>
    rw [List.replicate_succ, List.dropWhile_cons, h]
    simp [List.replicate_succ]

/-- C7 (counterexample): the claim says the normalized output never
contains a run of two or more consecutive whitespace characters, but on
the raw input `"a @ b"` the character filter removes the `@` between two
single spaces and the output `"a  b"` contains a double space. -/
theorem clean_content_ws_run_counterexample :
    hasWSRun (clean_content max_content_length
      ('a' :: ' ' :: '@' :: ' ' :: 'b' :: [])) = true := by decide

/-- C7 (amended): whitespace collapsing happens before the character
filter, so the no-whitespace-run postcondition holds for every input none
of whose characters is removed by the filter; in general the removal of a
disallowed character may merge two single spaces into a run. -/
theorem clean_content_no_ws_run_of_allowed (maxLen : Nat) (content : Str)
    (h : ∀ c ∈ content, isAllowed c = true) :
    hasWSRun (clean_content maxLen content) = false := by
  rw [clean_content_spec]
  have hall : (collapseWS content).filter isAllowed = collapseWS content :=
    List.filter_eq_self.mpr (fun c hc => by
      rcases mem_collapseWSAux hc with h1 | h2
      · subst h1; decide
      · exact h c h2)
  rw [hall]
  have h1 : hasWSRun (collapseWS content) = false := hasWSRun_collapseWS content
  by_cases hl : (collapseWS content).length > maxLen
  · rw [if_pos hl]
    apply hasWSRun_append
    · exact hasWSRun_of_suffix (lstrip_suffix _) (hasWSRun_take maxLen h1)
    · decide
    · decide
  · rw [if_neg hl]
    exact hasWSRun_pyStrip h1

theorem clean_content_no_ws_run_witness :
    hasWSRun (clean_content 500000 ('a' :: 'b' :: ' ' :: 'c' :: [])) = false :=
  clean_content_no_ws_run_of_allowed 500000 _ (by decide)

/-- C1 (counterexample): on the all-`'a'` input of length 500001 the
cleaned content is the input itself and exceeds the cap, and the code
appends `"... [Content truncated]"` (23 characters), so the output length
is 500023, not the claimed configured maximum plus the length of the bare
marker `"[Content truncated]"` (500019). -/
theorem clean_content_truncation_counterexample :
    (clean_content max_content_length (List.replicate 500001 'a')).length ≠
      max_content_length + ("[Content truncated]".data).length := by
  have h1 : collapseWS (List.replicate 500001 'a') = List.replicate 500001 'a' :=
    collapseWS_of_no_space (fun c hc => by
      rw [List.eq_of_mem_replicate hc]; decide)
  have h2 : (List.replicate 500001 'a').filter isAllowed =
      List.replicate 500001 'a' :=
    List.filter_eq_self.mpr (fun c hc => by
      rw [List.eq_of_mem_replicate hc]; decide)
  rw [clean_content_spec, h1, h2, List.length_replicate]
  rw [if_pos (by decide : 500001 > max_content_length)]
  have h3 : (List.replicate 500001 'a').take max_content_length =
      List.replicate 500000 'a' := by
    rw [List.take_replicate]
    rw [(by decide : min max_content_length 500001 = 500000)]
  rw [h3]
  have h4 : lstrip (List.replicate 500000 'a') = List.replicate 500000 'a' :=
    dropWhile_replicate_of_not (by decide) 500000
  rw [h4, List.length_append, List.length_replicate]
  decide

/-- C1 (amended): at the configured maximum length 500000, the
normalizer's output on content whose cleaned form exceeds the cap is the
first 500000 characters of the cleaned content with their leading
whitespace dropped, followed verbatim by the marker
`"... [Content truncated]"` (the final `strip()` cannot touch the marker,
which ends in a non-whitespace character); at or under the cap the output
is the cleaned content stripped on both sides, with no marker. -/
theorem clean_content_truncation_amended (content : Str) :
    clean_content max_content_length content =
      (if ((collapseWS content).filter isAllowed).length > max_content_length
       then lstrip (((collapseWS content).filter isAllowed).take
         max_content_length) ++ truncationMarker
       else pyStrip ((collapseWS content).filter isAllowed)) :=
  clean_content_spec max_content_length content

/-! ## Structured extraction parsing: claim C2 -/

/-- C2 (confirmed): for every model behaviour and every parsing outcome,
`extract_key_information` returns a value and exactly one of the two
shapes holds: either parsing fails and the result is the single-field
`{"raw_response": <entire response text>}` mapping, or parsing succeeds
and the result equals the parsed structure. No parse failure escapes. -/
theorem extract_key_information_total (chat : Str → Str)
    (jsonLoads : Str → Option JsonVal) (documentContent : Str) :
    Xor'
      (jsonLoads (chat (create_extraction_prompt documentContent)) = none ∧
        extract_key_information chat jsonLoads documentContent =
          JsonVal.obj [(("raw_response").data,
            JsonVal.str (chat (create_extraction_prompt documentContent)))])
      (∃ v, jsonLoads (chat (create_extraction_prompt documentContent)) =
          some v ∧
        extract_key_information chat jsonLoads documentContent = v) := by
  cases h : jsonLoads (chat (create_extraction_prompt documentContent)) with
  | none =>
    refine Or.inl ⟨⟨rfl, ?_⟩, ?_⟩
    · simp [extract_key_information, h]
    · rintro ⟨v, hv, -⟩
      exact Option.noConfusion hv
  | some v =>
    refine Or.inr ⟨⟨v, rfl, ?_⟩, ?_⟩
    · simp [extract_key_information, h]
    · rintro ⟨hn, -⟩
      exact Option.noConfusion hn

/-! ## Empty extraction is fatal: claim C6 -/

/-- C6 (confirmed): `process_white_paper` raises (returns an error with a
non-empty human-readable reason) exactly when the extracted content is
empty, and returns the content unchanged otherwise, so no downstream step
receives empty content from it. -/
theorem process_white_paper_empty_fatal (filePath extractedContent : Str) :
    ((∃ msg, process_white_paper filePath extractedContent =
        Except.error msg ∧ msg ≠ []) ↔ extractedContent = []) ∧
      (extractedContent ≠ [] →
        process_white_paper filePath extractedContent =
          Except.ok extractedContent) := by
  constructor
  · constructor
    · rintro ⟨msg, hmsg, -⟩
      by_cases h : extractedContent = []
      · exact h
      · rw [process_white_paper, if_neg h] at hmsg
        exact Except.noConfusion hmsg
    · intro h
      refine ⟨("Could not extract content from ").data ++ filePath, ?_, ?_⟩
      · rw [process_white_paper, if_pos h]
      · simp
  · intro h
    rw [process_white_paper, if_neg h]

theorem process_white_paper_witness :
    process_white_paper ('f' :: []) ('x' :: []) = Except.ok ('x' :: []) ∧
      (∃ msg, process_white_paper ('f' :: []) [] = Except.error msg ∧
        msg ≠ []) :=
  ⟨(process_white_paper_empty_fatal ('f' :: []) ('x' :: [])).2 (by decide),
    (process_white_paper_empty_fatal ('f' :: []) []).1.mpr rfl⟩

/-! ## Prompt content truncation: claim C8 -/

/-- C8 (confirmed): each prompt embeds exactly the slice
`content[:limit]` of the normalized content — a prefix of the content of
length `min(length, limit)` — with limit 50000 for the summary prompt and
30000 for the extraction and question-answering prompts. -/
theorem prompt_truncation_limits (content question : Str)
    (includeDetails : Bool) :
    create_summary_prompt content includeDetails =
        summaryBasePrompt ++ ("\n").data ++ content.take 50000 ++
          ("\n\n").data ++
          (if includeDetails then summaryDetailedInstructions
           else summaryConciseInstructions) ∧
      content.take 50000 <+: content ∧
      (content.take 50000).length = min content.length 50000 ∧
      create_extraction_prompt content =
        extractionPromptHead ++ content.take 30000 ++ extractionPromptTail ∧
      create_qa_prompt content question =
        qaPromptHead ++ content.take 30000 ++ qaPromptMid ++ question ++
          qaPromptTail ∧
      content.take 30000 <+: content ∧
      (content.take 30000).length = min content.length 30000 := by
  refine ⟨?_, List.take_prefix 50000 content, ?_, rfl, rfl,
    List.take_prefix 30000 content, ?_⟩
  · unfold create_summary_prompt
    by_cases h : content.length > 50000
    · rw [if_pos h]
    · rw [if_neg h, List.take_of_length_le (Nat.le_of_not_lt h)]
  · rw [List.length_take, Nat.min_comm]
  · rw [List.length_take, Nat.min_comm]

/-! ## Question answering: claim C9 -/

theorem dictGet_insert_self (k v : Str) (m : List (Str × Str)) :
    dictGet k (dictInsert k v m) = some v := by
  induction m with
  | nil => simp [dictInsert, dictGet]
  | cons kv m ih =>
    obtain ⟨a, b⟩ := kv
    by_cases hak : a = k
    · subst hak
      simp [dictInsert, dictGet]
    · simp [dictInsert, dictGet, hak, ih]

theorem dictGet_insert_other {k k0 : Str} (hne : k0 ≠ k) (v : Str)
    (m : List (Str × Str)) : dictGet k0 (dictInsert k v m) = dictGet k0 m := by
  have hkk0 : ¬ k = k0 := fun h => hne h.symm
  induction m with
  | nil => simp [dictInsert, dictGet, hkk0]
  | cons kv m ih =>
    obtain ⟨a, b⟩ := kv
    by_cases hak : a = k
    · subst hak
      simp [dictInsert, dictGet, hkk0]
    · simp only [dictInsert, if_neg hak]
      by_cases hk0 : a = k0
      · simp [dictGet, hk0]
      · simp [dictGet, hk0, ih]

theorem answersLoop_log (chat : Str → Str) (documentContent : Str) :
    ∀ (qs : List Str) (answers : List (Str × Str)) (promptLog : List Str),
      (answersLoop chat documentContent qs answers promptLog).2 =
        promptLog ++ qs.map (create_qa_prompt documentContent) := by
  intro qs
  induction qs with
  | nil => intro answers promptLog; simp [answersLoop]
  | cons q qs ih =>
    intro answers promptLog
    rw [answersLoop, ih]
    simp

theorem answersLoop_answers (chat : Str → Str) (documentContent : Str) :
    ∀ (qs : List Str) (answers : List (Str × Str)) (promptLog : List Str)
      (q : Str),
      (q ∈ qs → dictGet q (answersLoop chat documentContent qs answers
          promptLog).1 =
        some (chat (create_qa_prompt documentContent q))) ∧
      (q ∉ qs → dictGet q (answersLoop chat documentContent qs answers
          promptLog).1 = dictGet q answers) := by
  intro qs
  induction qs with
  | nil =>
    intro answers promptLog q
    exact ⟨fun h => absurd h (List.not_mem_nil q), fun _ => rfl⟩
  | cons q0 qs ih =>
    intro answers promptLog q
    rw [answersLoop]
    constructor
    · intro hq
      by_cases hmem : q ∈ qs
      · exact (ih _ _ q).1 hmem
      · have hq0 : q = q0 := by
          rcases List.mem_cons.mp hq with h | h
          · exact h
          · exact absurd h hmem
        subst hq0
        rw [(ih _ _ q).2 hmem, dictGet_insert_self]
    · intro hq
      have hne : q ≠ q0 := fun h => hq (h ▸ List.mem_cons_self q0 qs)
      have hnmem : q ∉ qs := fun h => hq (List.mem_cons_of_mem q0 h)
      rw [(ih _ _ q).2 hnmem, dictGet_insert_other hne]

/-- C9 (confirmed): `answer_questions` sends exactly one prompt per
question, in the supplied order; the returned mapping answers every
supplied question with the model response to that question's prompt; and
zero questions produce an empty mapping with no model call. -/
theorem answer_questions_per_question (chat : Str → Str)
    (documentContent : Str) (questions : List Str) :
    (answer_questions chat documentContent questions).2 =
        questions.map (create_qa_prompt documentContent) ∧
      (∀ q ∈ questions,
        dictGet q (answer_questions chat documentContent questions).1 =
          some (chat (create_qa_prompt documentContent q))) ∧
      answer_questions chat documentContent [] = ([], []) := by
  refine ⟨?_, ?_, rfl⟩
  · rw [answer_questions, answersLoop_log]
    simp
  · intro q hq
    exact (answersLoop_answers chat documentContent questions [] [] q).1 hq

theorem answer_questions_witness :
    dictGet ('q' :: []) (answer_questions (fun _ => [])
        ('d' :: []) (('q' :: []) :: [])).1 =
      some ((fun _ => ([] : Str)) (create_qa_prompt ('d' :: []) ('q' :: []))) :=
  (answer_questions_per_question (fun _ => []) ('d' :: [])
    (('q' :: []) :: [])).2.1 ('q' :: []) (List.mem_cons_self _ _)

/-! ## Chunker: claims C3, C4, C10 -/

theorem joinPS_append (a b : List Str) :
    joinPS (a ++ b) = joinPS a ++ joinPS b := by
  simp [joinPS]

theorem joinPS_singleton (p : Str) : joinPS (p :: []) = p ++ paraSep := by
  simp [joinPS]

theorem joinPS_concat (g : List Str) (p : Str) :
    joinPS (g ++ p :: []) = (joinPS g ++ p) ++ paraSep := by
  rw [joinPS_append, joinPS_singleton, List.append_assoc]

theorem joinPS_ne_nil {g : List Str} (h : g ≠ []) : joinPS g ≠ [] := by
  cases g with
  | nil => exact absurd rfl h
  | cons x g => simp [joinPS, paraSep]

theorem length_joinPS_concat (g : List Str) (p : Str) :
    (joinPS (g ++ p :: [])).length = (joinPS g ++ p).length + 2 := by
  rw [joinPS_concat, List.length_append]
  simp [paraSep]

/-- The loop invariant of `_chunk_document`: from any loop state whose
pending accumulation is a (possibly empty) group of already-consumed
paragraphs, the loop output extends `chunks` with the stripped joins of a
partition of the remaining paragraphs (prefixed by the pending group)
into consecutive non-empty groups, each group being either a single
paragraph or of bounded joined size. -/
theorem chunkLoop_parts (size : Nat) :
    ∀ (ps : List Str) (g : List Str) (chunks : List Str),
      (g = [] ∨ (∃ p, g = p :: []) ∨ (joinPS g).length ≤ size + 1) →
      ∃ gs : List (List Str),
        gs.flatten = g ++ ps ∧
        (∀ x ∈ gs, x ≠ []) ∧
        (∀ x ∈ gs, (∃ p, x = p :: []) ∨ (joinPS x).length ≤ size + 1) ∧
        chunkLoop size ps (joinPS g) chunks =
          chunks ++ gs.map (fun x => pyStrip (joinPS x)) := by
  intro ps
  induction ps with
  | nil =>
    intro g chunks hg
    by_cases hge : g = []
    · subst hge
      refine ⟨[], by simp, by simp, by simp, ?_⟩
      simp [chunkLoop, joinPS]
    · refine ⟨[g], by simp, by simp [hge], ?_, ?_⟩
      · intro x hx
        rw [List.mem_singleton] at hx
        subst hx
        rcases hg with h | h | h
        · exact absurd h hge
        · exact Or.inl h
        · exact Or.inr h
      · rw [chunkLoop, if_pos (joinPS_ne_nil hge)]
        simp
  | cons p ps ih =>
    intro g chunks hg
    by_cases hbr : (joinPS g).length + p.length < size
    · rw [chunkLoop, if_pos hbr, show joinPS g ++ p ++ paraSep =
        joinPS (g ++ p :: []) from (joinPS_concat g p).symm]
      obtain ⟨gs, h1, h2, h3, h4⟩ := ih (g ++ p :: []) chunks
        (Or.inr (Or.inr (by
          rw [length_joinPS_concat, List.length_append]
          omega)))
      refine ⟨gs, ?_, h2, h3, h4⟩
      rw [h1, List.append_assoc]
      rfl
    · rw [chunkLoop, if_neg hbr,
        show p ++ paraSep = joinPS (p :: []) from (joinPS_singleton p).symm]
      by_cases hge : g = []
      · subst hge
        rw [if_neg (by simp [joinPS])]
        obtain ⟨gs, h1, h2, h3, h4⟩ := ih (p :: []) chunks
          (Or.inr (Or.inl ⟨p, rfl⟩))
        exact ⟨gs, by rw [h1]; rfl, h2, h3, h4⟩
      · rw [if_pos (joinPS_ne_nil hge)]
        obtain ⟨gs, h1, h2, h3, h4⟩ := ih (p :: [])
          (chunks ++ [pyStrip (joinPS g)]) (Or.inr (Or.inl ⟨p, rfl⟩))
        refine ⟨g :: gs, ?_, ?_, ?_, ?_⟩
        · rw [List.flatten_cons, h1]
          rfl
        · intro x hx
          rcases List.mem_cons.mp hx with h | h
          · subst h; exact hge
          · exact h2 x h
        · intro x hx
          rcases List.mem_cons.mp hx with h | h
          · subst h
            rcases hg with ha | ha | ha
            · exact absurd ha hge
            · exact Or.inl ha
            · exact Or.inr ha
          · exact h3 x h
        · rw [h4, List.map_cons, List.append_assoc]
          rfl

/-- The partition view of `_chunk_document` itself. -/
theorem chunk_document_parts (size : Nat) (content : Str) :
    ∃ gs : List (List Str),
      gs.flatten = splitNN content ∧
      (∀ x ∈ gs, x ≠ []) ∧
      (∀ x ∈ gs, (∃ p, x = p :: []) ∨ (joinPS x).length ≤ size + 1) ∧
      chunk_document size content = gs.map (fun x => pyStrip (joinPS x)) := by
  obtain ⟨gs, h1, h2, h3, h4⟩ :=
    chunkLoop_parts size (splitNN content) [] [] (Or.inl rfl)
  exact ⟨gs, by simpa using h1, h2, h3, by simpa [chunk_document] using h4⟩

theorem intercalate_cons₂ (sep a b : Str) (l : List Str) :
    List.intercalate sep (a :: b :: l) =
      a ++ sep ++ List.intercalate sep (b :: l) := by
  simp [List.intercalate, List.intersperse]

theorem joinPS_eq_intercalate {x : List Str} (h : x ≠ []) :
    joinPS x = List.intercalate paraSep x ++ paraSep := by
  induction x with
  | nil => exact absurd rfl h
  | cons a x ih =>
    cases x with
    | nil => simp [joinPS, List.intercalate]
    | cons b x1 =>
      rw [show joinPS (a :: b :: x1) = (a ++ paraSep) ++ joinPS (b :: x1)
        from by simp [joinPS], ih (by simp), intercalate_cons₂]
      simp [List.append_assoc]

theorem pyStrip_joinPS {x : List Str} (h : x ≠ []) :
    pyStrip (joinPS x) = pyStrip (List.intercalate paraSep x) := by
  rw [joinPS_eq_intercalate h, pyStrip_append_nn]

/-- C3 (confirmed): the chunks are exactly the `"\n\n"`-joins of a
partition of the input's paragraph list into consecutive non-empty
groups, with only leading/trailing whitespace of each chunk stripped —
nothing is lost or reordered at the paragraph level. -/
theorem chunk_round_trip (chunkSize : Nat) (content : Str) :
    ∃ gs : List (List Str),
      gs.flatten = splitNN content ∧
      (∀ g ∈ gs, g ≠ []) ∧
      chunk_document chunkSize content =
        gs.map (fun g => pyStrip (List.intercalate paraSep g)) := by
  obtain ⟨gs, h1, h2, h3, h4⟩ := chunk_document_parts chunkSize content
  refine ⟨gs, h1, h2, ?_⟩
  rw [h4]
  exact List.map_congr_left (fun x hx => pyStrip_joinPS (h2 x hx))

/-- C4 (confirmed): every chunk is shorter than the configured chunk
size, except a chunk that is a single (stripped) oversized paragraph of
the input, which is kept whole. -/
theorem chunk_soft_cap (chunkSize : Nat) (content : Str)
    (hsize : 0 < chunkSize) :
    ∀ c ∈ chunk_document chunkSize content,
      c.length < chunkSize ∨
      ∃ p ∈ splitNN content, chunkSize ≤ p.length ∧ c = pyStrip p := by
  obtain ⟨gs, h1, h2, h3, h4⟩ := chunk_document_parts chunkSize content
  intro c hc
  rw [h4] at hc
  obtain ⟨x, hx, hxc⟩ := List.mem_map.mp hc
  subst hxc
  have hxne := h2 x hx
  rcases h3 x hx with ⟨p, hp⟩ | hlen
  · subst hp
    have hmem : p ∈ splitNN content := by
      rw [← h1]
      exact List.mem_flatten.mpr ⟨p :: [], hx, List.mem_singleton.mpr rfl⟩
    rw [show pyStrip (joinPS (p :: [])) = pyStrip p from by
      rw [joinPS_singleton, pyStrip_append_nn]]
    by_cases hp2 : chunkSize ≤ p.length
    · exact Or.inr ⟨p, hmem, hp2, rfl⟩
    · exact Or.inl (lt_of_le_of_lt (length_pyStrip_le p)
        (Nat.lt_of_not_le hp2))
  · rcases List.eq_nil_or_concat x with h | ⟨x1, q, hxq⟩
    · exact absurd h hxne
    · rw [List.concat_eq_append] at hxq
      subst hxq
      rw [show pyStrip (joinPS (x1 ++ q :: [])) = pyStrip (joinPS x1 ++ q)
        from by rw [joinPS_concat, pyStrip_append_nn]]
      apply Or.inl
      have hle := length_pyStrip_le (joinPS x1 ++ q)
      have hlen2 := length_joinPS_concat x1 q
      omega

theorem chunk_soft_cap_witness :
    (('a' :: 'a' :: []) : Str).length < 10 ∨
      ∃ p ∈ splitNN ('a' :: 'a' :: []), 10 ≤ p.length ∧
        ('a' :: 'a' :: []) = pyStrip p :=
  chunk_soft_cap 10 ('a' :: 'a' :: []) (by decide) ('a' :: 'a' :: [])
    (by decide)

theorem splitNN_ne_nil (s : Str) : splitNN s ≠ [] := by
  unfold splitNN
  split
  · simp
  · simp
  · split <;> simp

theorem chunk_document_ne_nil (size : Nat) (content : Str) :
    chunk_document size content ≠ [] := by
  obtain ⟨gs, h1, h2, h3, h4⟩ := chunk_document_parts size content
  rw [h4]
  intro h
  rw [List.map_eq_nil_iff] at h
  subst h
  exact splitNN_ne_nil content h1.symm

theorem chunk_document_empty (size : Nat) : chunk_document size [] = [[]] := by
  have hps : pyStrip paraSep = [] := by decide
  show chunkLoop size (splitNN []) [] [] = [[]]
  rw [show splitNN [] = [[]] from rfl]
  rw [chunkLoop]
  by_cases h : (0 : Nat) + 0 < size
  · rw [if_pos (by simpa using h)]
    rw [chunkLoop, if_pos (by simp [paraSep])]
    simp [hps]
  · rw [if_neg (by simpa using h)]
    rw [if_neg (by simp), chunkLoop, if_pos (by simp [paraSep])]
    simp [hps]

/-- C10 (confirmed): chunking never returns an empty sequence — the empty
input yields the single chunk `""` — and consequently every summary
record reports `chunks_processed ≥ 1`. -/
theorem chunks_processed_positive (size : Nat) (content : Str)
    (chat : Str → Str) (model documentContent : Str)
    (includeDetails : Bool) :
    chunk_document size content ≠ [] ∧
      chunk_document size [] = [[]] ∧
      1 ≤ (generate_summary chat model documentContent
        includeDetails).chunks_processed := by
  refine ⟨chunk_document_ne_nil size content, chunk_document_empty size, ?_⟩
  show 1 ≤ (chunk_document max_chunk_size documentContent).length
  exact List.length_pos.mpr (chunk_document_ne_nil _ _)

/-! ## Outline extraction: claim C5 -/

theorem sectionsOfLines_nil : sectionsOfLines [] = [] := by
  rw [sectionsOfLines]

theorem sectionsOfLines_heading {line : Str} {rest : List Str}
    (h : startsWithHash line = true) :
    sectionsOfLines (line :: rest) =
      emitSec (some (pyStrip (lstripHash line)))
        ((rest.takeWhile (fun l => !startsWithHash l)).filter nonBlank) ++
        sectionsOfLines (rest.dropWhile (fun l => !startsWithHash l)) := by
  rw [sectionsOfLines, if_pos h]
  unfold emitSec sectionTruthy
  by_cases ht : (pyStrip (lstripHash line)).isEmpty
  · rw [if_pos ht]
    simp [ht]
  · rw [if_neg ht]
    simp [ht]

theorem sectionsOfLines_not_heading {line : Str} {rest : List Str}
    (h : startsWithHash line = false) :
    sectionsOfLines (line :: rest) = sectionsOfLines rest := by
  rw [sectionsOfLines, if_neg (by simp [h])]

theorem sectionsOfLines_no_heading {lines : List Str}
    (h : ∀ l ∈ lines, startsWithHash l = false) : sectionsOfLines lines = [] := by
  induction lines with
  | nil => exact sectionsOfLines_nil
  | cons line rest ih =>
    rw [sectionsOfLines_not_heading (h line (List.mem_cons_self _ _))]
    exact ih (fun l hl => h l (List.mem_cons_of_mem _ hl))

theorem closeSection_eq (cs : Option Str) (cc : List Str)
    (acc : List KeySection) : closeSection cs cc acc = acc ++ emitSec cs cc := by
  unfold closeSection emitSec
  by_cases h : sectionTruthy cs
  · rw [if_pos h, if_pos h]
  · rw [if_neg h, if_neg h, List.append_nil]

theorem sectionsLoop_acc :
    ∀ (lines : List Str) (cs : Option Str) (cc : List Str)
      (acc : List KeySection),
      sectionsLoop lines cs cc acc = acc ++ sectionsLoop lines cs cc [] := by
  intro lines
  induction lines with
  | nil =>
    intro cs cc acc
    show closeSection cs cc acc = acc ++ closeSection cs cc []
    rw [closeSection_eq, closeSection_eq, List.nil_append]
  | cons line rest ih =>
    intro cs cc acc
    rw [sectionsLoop, sectionsLoop]
    by_cases hh : startsWithHash line
    · rw [if_pos hh, if_pos hh,
        ih (some (pyStrip (lstripHash line))) [] (closeSection cs cc acc),
        ih (some (pyStrip (lstripHash line))) [] (closeSection cs cc []),
        closeSection_eq, closeSection_eq, List.nil_append, List.append_assoc]
    · rw [if_neg hh, if_neg hh]
      by_cases hb : nonBlank line
      · rw [if_pos hb, if_pos hb]
        exact ih cs (cc ++ [line]) acc
      · rw [if_neg hb, if_neg hb]
        exact ih cs cc acc

theorem sectionsLoop_open :
    ∀ (lines : List Str) (t : Str) (cc : List Str),
      sectionsLoop lines (some t) cc [] =
        emitSec (some t)
          (cc ++ (lines.takeWhile (fun l => !startsWithHash l)).filter
            nonBlank) ++
          sectionsOfLines (lines.dropWhile (fun l => !startsWithHash l)) := by
  intro lines
  induction lines with
  | nil =>
    intro t cc
    show closeSection (some t) cc [] = _
    rw [closeSection_eq, List.nil_append]
    simp [sectionsOfLines_nil]
  | cons line rest ih =>
    intro t cc
    rw [sectionsLoop]
    by_cases hh : startsWithHash line
    · rw [if_pos hh, sectionsLoop_acc, closeSection_eq, List.nil_append,
        ih (pyStrip (lstripHash line)) []]
      rw [List.takeWhile_cons, List.dropWhile_cons]
      simp only [hh, Bool.not_true, Bool.false_eq_true, if_false]
      rw [sectionsOfLines_heading hh]
      simp [List.append_assoc]
    · have hh' : startsWithHash line = false := Bool.eq_false_iff.mpr hh
      rw [if_neg hh]
      rw [List.takeWhile_cons, List.dropWhile_cons]
      simp only [hh', Bool.not_false, if_true]
      by_cases hb : nonBlank line
      · rw [if_pos hb, ih t (cc ++ [line]), List.filter_cons, if_pos hb,
          List.append_assoc]
        rfl
      · rw [if_neg hb, ih t cc, List.filter_cons, if_neg hb]

theorem sectionsLoop_closed :
    ∀ (lines : List Str) (cc : List Str),
      sectionsLoop lines none cc [] = sectionsOfLines lines := by
  intro lines
  induction lines with
  | nil =>
    intro cc
    show closeSection none cc [] = _
    rw [closeSection_eq, sectionsOfLines_nil]
    rfl
  | cons line rest ih =>
    intro cc
    rw [sectionsLoop]
    by_cases hh : startsWithHash line
    · rw [if_pos hh, sectionsLoop_acc, closeSection_eq]
      rw [sectionsLoop_open rest (pyStrip (lstripHash line)) []]
      rw [sectionsOfLines_heading hh]
      simp [closeSection_eq, emitSec, sectionTruthy]
    · have hh' : startsWithHash line = false := Bool.eq_false_iff.mpr hh
      rw [if_neg hh, sectionsOfLines_not_heading hh']
      by_cases hb : nonBlank line
      · rw [if_pos hb]
        exact ih (cc ++ [line])
      · rw [if_neg hb]
        exact ih cc

/-- C5 (amended): the scanning loop of `_extract_key_sections` produces,
in order of appearance, one section per heading line whose
marker-stripped title is non-empty (a heading whose stripped title is
empty opens no section); the section body is the stripped newline-join of
the non-blank lines up to the next heading; a text with no heading
markers yields an empty outline, and the spec's concrete example holds. -/
theorem extract_key_sections_spec (s : Str) :
    extract_key_sections s = sectionsOfLines (splitChar '\n' s) ∧
      ((∀ l ∈ splitChar '\n' s, startsWithHash l = false) →
        extract_key_sections s = []) ∧
      extract_key_sections (("# A\nbody1\n# B\nbody2").data) =
        ⟨("A").data, ("body1").data⟩ :: ⟨("B").data, ("body2").data⟩ :: [] := by
  have hmain : extract_key_sections s = sectionsOfLines (splitChar '\n' s) :=
    sectionsLoop_closed (splitChar '\n' s) []
  refine ⟨hmain, ?_, by decide⟩
  intro h
  rw [hmain]
  exact sectionsOfLines_no_heading h

theorem extract_key_sections_witness :
    extract_key_sections (("ab\ncd").data) = [] :=
  (extract_key_sections_spec (("ab\ncd").data)).2.1 (by decide)

/-- C5 (counterexample): on `"#\nbody"` there is one line beginning with
the heading marker, but its marker-stripped title is empty and the code
drops the section entirely, so the outline is empty rather than
containing the empty-titled section the claim requires. -/
theorem extract_key_sections_counterexample :
    extract_key_sections (("#\nbody").data) = [] ∧
      extract_key_sections (("#\nbody").data) ≠
        ⟨[], ("body").data⟩ :: [] := by
  exact ⟨by decide, by decide⟩

end RAGSummary
